import Mathlib

/-!
Shallow embedding of the transcript segment router and the in-memory
version store of the dailies-notes prototype.

Sources embedded here:
- frontend_v3/services/backend_service.py: `_poll_transcription`,
  `_mark_current_segments_as_seen`, `selectVersion`
- backend/version_service.py and backend/csv_service.py: the version
  dictionary with its insertion-order list, `create_version`,
  `delete_version`, `clear_versions`, `upload_csv`, `export_csv`

Python dictionaries are modelled as insertion-ordered association lists,
Python sets as `Finset String`, absent dictionary keys as `Option`,
timestamps as `Nat`.  HTTP 404 responses raise inside `_make_request`
(`raise_for_status`), so a failed lookup is modelled as `Option`/no-op.
-/

/-- Segment dictionary as delivered by the transcription service.  A field
holds `none` when the corresponding key is absent; `some ""` models a
present but empty string (falsy in Python). -/
structure Segment where
  id : Option String
  timestamp : Option String
  speaker : Option String
  text : Option String
deriving DecidableEq, Repr

/-- Embeds `seg.get("id") or seg.get("timestamp", "")`: the id when present
and truthy, otherwise the timestamp defaulted to the empty string. -/
def segmentKey (s : Segment) : String :=
  match s.id with
  | some i => if i = "" then s.timestamp.getD "" else i
  | none => s.timestamp.getD ""

/-- Embeds the f-string rendering of one new segment:
speaker defaulted to Unknown, then a colon and the text. -/
def renderSegment (s : Segment) : String :=
  s.speaker.getD "Unknown" ++ ": " ++ s.text.getD ""

/-- Router-relevant fields of the BackendService object of frontend_v3.
Fields that never interact with segment routing (API keys, ShotGrid data,
staging note, status, signal objects) are omitted.  An empty
`currentMeetingId` or `selectedVersionId` models the falsy guard value. -/
structure RouterState where
  currentMeetingId : String
  selectedVersionId : String
  selectedVersionName : String
  currentNotes : String
  currentAiNotes : String
  currentTranscript : String
  activationTime : Option Nat
  seenSegmentIds : Finset String
deriving DecidableEq

/-- Embeds the filtering loop of `_poll_transcription`: walk the snapshot in
order, collect segments whose key is truthy and unseen, adding each
collected key to the seen set immediately.  Returns the `new_segments`
list and the updated seen set. -/
def collectNew (seen : Finset String) : List Segment → List Segment × Finset String
  | [] => ([], seen)
  | s :: rest =>
    let k := segmentKey s
    if k ≠ "" ∧ k ∉ seen then
      let r := collectNew (insert k seen) rest
      (s :: r.1, r.2)
    else
      collectNew seen rest

/-- Embeds `_poll_transcription`.  The `segments` argument stands for the
snapshot returned by a successful `get_transcription` call; a fetch failure
is swallowed and leaves the state unchanged, exactly like the guard
branches.  The second component is the `new_segments` list of the call
(empty on every no-op branch); a push of the transcript to the store is
triggered exactly when it is nonempty. -/
def pollTranscription (st : RouterState) (segments : List Segment) :
    RouterState × List Segment :=
  if st.currentMeetingId = "" then (st, [])
  else if st.selectedVersionId = "" ∨ st.activationTime = none then (st, [])
  else if segments = [] then (st, [])
  else
    let r := collectNew st.seenSegmentIds segments
    if r.1 = [] then ({ st with seenSegmentIds := r.2 }, [])
    else
      let newText := String.intercalate "\n" (r.1.map renderSegment)
      let t :=
        if st.currentTranscript = "" then newText
        else st.currentTranscript ++ "\n" ++ newText
      ({ st with seenSegmentIds := r.2, currentTranscript := t }, r.1)

/-- Loop body of `_mark_current_segments_as_seen`: a truthy segment key is
added to the seen set, a falsy one is skipped. -/
def seenFoldStep (acc : Finset String) (s : Segment) : Finset String :=
  if segmentKey s ≠ "" then insert (segmentKey s) acc else acc

/-- Embeds `_mark_current_segments_as_seen` (the baseline): every truthy
segment key of the snapshot is added to the seen set; nothing else in the
state is touched.  A fetch failure, a missing meeting or an empty snapshot
leaves the state unchanged. -/
def markCurrentSegmentsAsSeen (st : RouterState) (segments : List Segment) :
    RouterState :=
  if st.currentMeetingId = "" then st
  else if segments = [] then st
  else
    { st with seenSegmentIds := segments.foldl seenFoldStep st.seenSegmentIds }

/-- Models the Python `str.strip()` used by the CSV services: drop ASCII
whitespace from both ends.  Written structurally so that concrete inputs
evaluate inside the kernel. -/
def pyStrip (s : String) : String :=
  ⟨((s.data.dropWhile Char.isWhitespace).reverse.dropWhile Char.isWhitespace).reverse⟩

/-- Models the Python `str.lower()` used on CSV header cells. -/
def pyLower (s : String) : String :=
  ⟨s.data.map Char.toLower⟩

/-- Prefix test on character lists, for the split model. -/
def charsStartsWith : List Char → List Char → Bool
  | _, [] => true
  | [], _ :: _ => false
  | c :: cs, d :: ds => c = d && charsStartsWith cs ds

/-- Fuel-based body of the Python `str.split(sep)` model: at each position
either the nonempty separator matches (emit the accumulated chunk and skip
it) or one character is consumed; the fuel is the remaining length, so it
never runs out. -/
def pySplitAux (sep : List Char) : Nat → List Char → List Char → List (List Char)
  | 0, rest, acc => [acc ++ rest]
  | _ + 1, [], acc => [acc]
  | fuel + 1, c :: cs, acc =>
    if charsStartsWith (c :: cs) sep then
      acc :: pySplitAux sep fuel (cs.drop (sep.length - 1)) []
    else
      pySplitAux sep fuel cs (acc ++ [c])

/-- Models the Python `str.split(sep)` with a nonempty separator, used by
the export on the blank-line-pair delimiter: leftmost nonoverlapping
matches, always at least one chunk. -/
def pySplit (s sep : String) : List String :=
  if sep = "" then [s]
  else (pySplitAux sep.data s.data.length s.data []).map (fun cs => ⟨cs⟩)

/-- Version record of the backend store (version_service.py). -/
structure Version where
  id : String
  name : String
  user_notes : String
  ai_notes : String
  transcript : String
deriving DecidableEq, Repr

/-- Lookup in the `_versions` dictionary, modelled as the first pair whose
key matches. -/
def dictGet (d : List (String × Version)) (k : String) : Option Version :=
  match d with
  | [] => none
  | (k2, v) :: rest => if k2 = k then some v else dictGet rest k

/-- Assignment `_versions[k] = v`: replace the value in place when the key
exists, otherwise append the pair, matching Python dictionary insertion
order. -/
def dictSet (d : List (String × Version)) (k : String) (v : Version) :
    List (String × Version) :=
  match d with
  | [] => [(k, v)]
  | (k2, v2) :: rest =>
    if k2 = k then (k2, v) :: rest else (k2, v2) :: dictSet rest k v

/-- Deletion `del _versions[k]`: remove the first pair with the key. -/
def dictDelete (d : List (String × Version)) (k : String) :
    List (String × Version) :=
  match d with
  | [] => []
  | (k2, v2) :: rest =>
    if k2 = k then rest else (k2, v2) :: dictDelete rest k

/-- Backend store: the `_versions` dictionary together with the
`_version_order` insertion-order list. -/
structure VersionStore where
  versions : List (String × Version)
  versionOrder : List String
deriving DecidableEq

/-- Embeds `selectVersion` of frontend_v3.  A 404 on the GET raises inside
`_make_request`, is caught, and leaves every field unchanged with no
baseline scheduled; on success the version data is loaded, the activation
time set, the seen set cleared, and a baseline fetch scheduled (the
boolean result). -/
def selectVersion (store : VersionStore) (st : RouterState) (versionId : String)
    (now : Nat) : RouterState × Bool :=
  match dictGet store.versions versionId with
  | none => (st, false)
  | some v =>
    ({ st with
        selectedVersionId := v.id,
        selectedVersionName := v.name,
        currentNotes := v.user_notes,
        currentAiNotes := v.ai_notes,
        currentTranscript := v.transcript,
        activationTime := some now,
        seenSegmentIds := ∅ }, true)

/-- Embeds `create_version`: an existing id only has its record replaced, a
new id is appended to both the dictionary and the order list. -/
def create_version (st : VersionStore) (v : Version) : VersionStore :=
  if (dictGet st.versions v.id).isSome then
    { st with versions := dictSet st.versions v.id v }
  else
    { versions := dictSet st.versions v.id v,
      versionOrder := st.versionOrder ++ [v.id] }

/-- Embeds `delete_version`: `none` models the 404 branch. -/
def delete_version (st : VersionStore) (versionId : String) :
    Option VersionStore :=
  if (dictGet st.versions versionId).isSome then
    some
      { versions := dictDelete st.versions versionId,
        versionOrder := st.versionOrder.erase versionId }
  else none

/-- Embeds `clear_versions`. -/
def clear_versions (_st : VersionStore) : VersionStore :=
  { versions := [], versionOrder := [] }

/-- Embeds the header scan of `upload_csv`: index of the first column whose
lower-cased, stripped text is the word id. -/
def findIdColumnAux : List String → Nat → Option Nat
  | [], _ => none
  | c :: rest, i =>
    if pyStrip (pyLower c) = "id" then some i else findIdColumnAux rest (i + 1)

/-- Index of the optional ID column in the header row. -/
def findIdColumn (header : List String) : Option Nat :=
  findIdColumnAux header 0

/-- Embeds the per-row step of `upload_csv`: a row with a blank (or absent)
first cell is dropped; otherwise the display name is the stripped first
cell and the id comes from the ID column when that index is in range and
its stripped cell is nonempty, else the name.  Returns an id-name pair. -/
def rowToVersionData (idIdx : Option Nat) (row : List String) :
    Option (String × String) :=
  match row with
  | [] => none
  | c0 :: _ =>
    if pyStrip c0 = "" then none
    else
      let name := pyStrip c0
      let vid :=
        match idIdx with
        | some i =>
          if i < row.length ∧ pyStrip (row.getD i "") ≠ "" then pyStrip (row.getD i "")
          else name
        | none => name
      some (vid, name)

/-- Fold step shared by `upload_csv`: store one parsed id-name pair as a
fresh version with empty notes and transcript, appending the id to the
order list unconditionally. -/
def uploadStep (st : VersionStore) (p : String × String) : VersionStore :=
  { versions := dictSet st.versions p.1 ⟨p.1, p.2, "", "", ""⟩,
    versionOrder := st.versionOrder ++ [p.1] }

/-- Embeds `upload_csv`: the first row is the header (`none` models the 400
raised when the file is empty or the header row is blank), the previous
store contents are cleared, and every surviving data row is loaded in
order. -/
def upload_csv (_st : VersionStore) (rows : List (List String)) :
    Option VersionStore :=
  match rows with
  | [] => none
  | header :: dataRows =>
    if header = [] then none
    else
      let idIdx := findIdColumn header
      let vdata := dataRows.filterMap (rowToVersionData idIdx)
      some (vdata.foldl uploadStep ⟨[], []⟩)

/-- Embeds the per-version rows of `export_csv`: the note chunks are the
double-newline split of `user_notes` when that is nonempty; each chunk with
nonblank content yields one stripped row, and a version without notes
yields one row with an empty note cell. -/
def versionRows (v : Version) : List (List String) :=
  let notes := if v.user_notes ≠ "" then pySplit v.user_notes "\n\n" else []
  if notes ≠ [] then
    notes.filterMap
      (fun n => if pyStrip n ≠ "" then some [v.name, pyStrip n, v.transcript] else none)
  else
    [[v.name, "", v.transcript]]

/-- Embeds `export_csv` as the list of logical CSV rows: the header row then
the note rows of each version in order.  The indexing `_versions[vid]`
raises a KeyError when an order entry is missing from the dictionary, which
`none` models. -/
def export_csv (st : VersionStore) : Option (List (List String)) :=
  (st.versionOrder.mapM (dictGet st.versions)).map
    (fun vs => ["Version", "Note", "Transcript"] :: vs.flatMap versionRows)

/-- Sequence of poll ticks: fold `_poll_transcription` over a list of
snapshots, collecting the keys of every segment line appended to the
transcript along the way. -/
def runPolls : RouterState → List (List Segment) → RouterState × List String
  | st, [] => (st, [])
  | st, snap :: rest =>
    let p := pollTranscription st snap
    let q := runPolls p.1 rest
    (q.1, p.2.map segmentKey ++ q.2)

/-- Append rule as the specification states it: join the new lines with
newline separators and append them to the transcript, preceded by one
newline separator exactly when the transcript was already nonempty; no new
lines means no change. -/
def specAppendIncrement (t : String) (lines : List String) : String :=
  if lines = [] then t
  else if t = "" then String.intercalate "\n" lines
  else t ++ "\n" ++ String.intercalate "\n" lines

/-- Keys of the version dictionary, in insertion order. -/
def storeKeys (st : VersionStore) : List String :=
  st.versions.map Prod.fst

/-- Store invariant of claim C8: the order list and the dictionary keys are
duplicate-free and contain exactly the same identifiers. -/
def StoreInv (st : VersionStore) : Prop :=
  st.versionOrder.Nodup ∧ (storeKeys st).Nodup ∧
    (∀ k ∈ st.versionOrder, k ∈ storeKeys st) ∧
    (∀ k ∈ storeKeys st, k ∈ st.versionOrder)

instance (st : VersionStore) : Decidable (StoreInv st) := by
  unfold StoreInv
  infer_instance

/-- Per-row import rule in the words of claim C7: drop the row when its
first column is blank; otherwise the display name is the trimmed first
column, and the identifier is the trimmed ID-column value when that column
exists and holds a nonblank value for the row, else the name. -/
def specRowVersion (idIdx : Option Nat) (row : List String) :
    Option (String × String) :=
  let name := pyStrip (row.headD "")
  if name = "" then none
  else
    match idIdx with
    | some i =>
      if pyStrip (row.getD i "") ≠ "" then some (pyStrip (row.getD i ""), name)
      else some (name, name)
    | none => some (name, name)

/-- Export rows in the words of claim C6: one row per chunk of the
double-newline split of `user_notes`, each row carrying the untrimmed
note. -/
def claimExportRows (st : VersionStore) : Option (List (List String)) :=
  (st.versionOrder.mapM (dictGet st.versions)).map
    (fun vs => ["Version", "Note", "Transcript"] ::
      vs.flatMap (fun v =>
        (pySplit v.user_notes "\n\n").map (fun n => [v.name, n, v.transcript])))

/-- Per-version export rows in the words of the amended claim C6: a version
without notes yields a single row with an empty note cell, every other
version yields one row per nonblank chunk of the double-newline split,
with the note trimmed. -/
def amendedVersionRows (v : Version) : List (List String) :=
  if v.user_notes = "" then [[v.name, "", v.transcript]]
  else
    (pySplit v.user_notes "\n\n").filterMap
      (fun n => if pyStrip n = "" then none else some [v.name, pyStrip n, v.transcript])

/-- Export in the words of the amended claim C6. -/
def amendedExportRows (st : VersionStore) : Option (List (List String)) :=
  (st.versionOrder.mapM (dictGet st.versions)).map
    (fun vs => ["Version", "Note", "Transcript"] :: vs.flatMap amendedVersionRows)

/-! ## Helper lemmas -/

/-- The split model never returns the empty list: every branch emits at
least one chunk. -/
theorem pySplitAux_ne_nil (sep : List Char) :
    ∀ (fuel : Nat) (rest acc : List Char), pySplitAux sep fuel rest acc ≠ [] := by
  intro fuel
  induction fuel with
  | zero => intro rest acc; simp [pySplitAux]
  | succ n ih =>
    intro rest acc
    cases rest with
    | nil => simp [pySplitAux]
    | cons c cs =>
      simp only [pySplitAux]
      split
      · simp
      · exact ih cs (acc ++ [c])

/-- Splitting a string never yields the empty list. -/
theorem pySplit_ne_nil (s sep : String) : pySplit s sep ≠ [] := by
  unfold pySplit
  split
  · simp
  · simp [pySplitAux_ne_nil]

/-- Membership in the updated seen set after the filtering loop: exactly the
old members together with the keys of the collected new segments. -/
theorem collectNew_mem_snd (segs : List Segment) :
    ∀ (seen : Finset String) (k : String),
      k ∈ (collectNew seen segs).2 ↔
        k ∈ seen ∨ k ∈ (collectNew seen segs).1.map segmentKey := by
  induction segs with
  | nil => intro seen k; simp [collectNew]
  | cons s rest ih =>
    intro seen k
    by_cases h : segmentKey s ≠ "" ∧ segmentKey s ∉ seen
    · simp only [collectNew, if_pos h, List.map_cons, List.mem_cons]
      rw [ih]
      simp only [Finset.mem_insert]
      tauto
    · simp only [collectNew, if_neg h]
      exact ih seen k

/-- Every collected new segment has a truthy key that was not yet seen. -/
theorem collectNew_fst_not_seen (segs : List Segment) :
    ∀ (seen : Finset String), ∀ s ∈ (collectNew seen segs).1,
      segmentKey s ≠ "" ∧ segmentKey s ∉ seen := by
  induction segs with
  | nil => intro seen s hs; simp [collectNew] at hs
  | cons s rest ih =>
    intro seen t ht
    by_cases h : segmentKey s ≠ "" ∧ segmentKey s ∉ seen
    · simp only [collectNew, if_pos h, List.mem_cons] at ht
      rcases ht with rfl | ht
      · exact h
      · have := ih (insert (segmentKey s) seen) t ht
        exact ⟨this.1, fun hm => this.2 (Finset.mem_insert_of_mem hm)⟩
    · simp only [collectNew, if_neg h] at ht
      exact ih seen t ht

/-- Keys of the segments collected in one poll are pairwise distinct. -/
theorem collectNew_fst_nodup (segs : List Segment) :
    ∀ (seen : Finset String), ((collectNew seen segs).1.map segmentKey).Nodup := by
  induction segs with
  | nil => intro seen; simp [collectNew]
  | cons s rest ih =>
    intro seen
    by_cases h : segmentKey s ≠ "" ∧ segmentKey s ∉ seen
    · simp only [collectNew, if_pos h, List.map_cons, List.nodup_cons]
      refine ⟨fun hmem => ?_, ih (insert (segmentKey s) seen)⟩
      obtain ⟨t, ht, hkey⟩ := List.mem_map.mp hmem
      have := collectNew_fst_not_seen rest (insert (segmentKey s) seen) t ht
      exact this.2 (hkey ▸ Finset.mem_insert_self _ _)
    · simp only [collectNew, if_neg h]
      exact ih seen

/-- Filtering out falsy-key segments does not change the filtering loop. -/
theorem collectNew_filter_key (segs : List Segment) :
    ∀ (seen : Finset String),
      collectNew seen (segs.filter (fun s => segmentKey s != "")) =
        collectNew seen segs := by
  induction segs with
  | nil => intro seen; rfl
  | cons s rest ih =>
    intro seen
    by_cases h : segmentKey s = ""
    · have hf : (segmentKey s != "") = false := by simp [h]
      rw [List.filter_cons, hf]
      simp only [Bool.false_eq_true, if_neg (by simp : ¬ False)]
      have hcond : ¬ (segmentKey s ≠ "" ∧ segmentKey s ∉ seen) := by
        intro hc; exact hc.1 h
      rw [ih seen]
      conv_rhs => rw [collectNew]
      rw [if_neg hcond]
    · have hf : (segmentKey s != "") = true := by simp [h]
      rw [List.filter_cons, hf]
      simp only [if_pos trivial]
      by_cases h2 : segmentKey s ∉ seen
      · have hcond : segmentKey s ≠ "" ∧ segmentKey s ∉ seen := ⟨h, h2⟩
        conv_lhs => rw [collectNew]
        conv_rhs => rw [collectNew]
        rw [if_pos hcond, if_pos hcond, ih (insert (segmentKey s) seen)]
      · have hcond : ¬ (segmentKey s ≠ "" ∧ segmentKey s ∉ seen) := by
          intro hc; exact h2 hc.2
        conv_lhs => rw [collectNew]
        conv_rhs => rw [collectNew]
        rw [if_neg hcond, if_neg hcond, ih seen]

/-- Membership after the baseline fold: the old members together with all
truthy keys of the snapshot. -/
theorem foldl_seenFoldStep_mem (segs : List Segment) :
    ∀ (b : Finset String) (k : String),
      k ∈ segs.foldl seenFoldStep b ↔
        k ∈ b ∨ ∃ s ∈ segs, segmentKey s = k ∧ k ≠ "" := by
  induction segs with
  | nil => intro b k; simp
  | cons s rest ih =>
    intro b k
    rw [List.foldl_cons, ih]
    by_cases h : segmentKey s = ""
    · simp only [seenFoldStep, h, ne_eq, not_true_eq_false, if_neg (by simp : ¬ False),
        List.mem_cons]
      constructor
      · rintro (hb | ⟨t, ht, hk⟩)
        · exact Or.inl hb
        · exact Or.inr ⟨t, Or.inr ht, hk⟩
      · rintro (hb | ⟨t, rfl | ht, hk⟩)
        · exact Or.inl hb
        · exact absurd h (hk.1 ▸ hk.2)
        · exact Or.inr ⟨t, ht, hk⟩
    · simp only [seenFoldStep, ne_eq, h, not_false_eq_true, if_pos trivial,
        Finset.mem_insert, List.mem_cons]
      constructor
      · rintro ((rfl | hb) | ⟨t, ht, hk⟩)
        · exact Or.inr ⟨s, Or.inl rfl, rfl, h⟩
        · exact Or.inl hb
        · exact Or.inr ⟨t, Or.inr ht, hk⟩
      · rintro (hb | ⟨t, rfl | ht, hk⟩)
        · exact Or.inl (Or.inr hb)
        · exact Or.inl (Or.inl hk.1.symm)
        · exact Or.inr ⟨t, ht, hk⟩

/-- The baseline fold is stable once every truthy key is already present. -/
theorem foldl_seenFoldStep_stable (segs : List Segment) :
    ∀ (b : Finset String),
      (∀ s ∈ segs, segmentKey s ≠ "" → segmentKey s ∈ b) →
        segs.foldl seenFoldStep b = b := by
  induction segs with
  | nil => intro b _; rfl
  | cons s rest ih =>
    intro b hb
    rw [List.foldl_cons]
    have hstep : seenFoldStep b s = b := by
      by_cases h : segmentKey s = ""
      · simp [seenFoldStep, h]
      · simp only [seenFoldStep, ne_eq, h, not_false_eq_true, if_pos trivial]
        exact Finset.insert_eq_self.mpr (hb s (List.mem_cons_self s rest) h)
    rw [hstep]
    exact ih b (fun t ht => hb t (List.mem_cons_of_mem s ht))

/-- Filtering out falsy-key segments does not change the baseline fold. -/
theorem foldl_seenFoldStep_filter (segs : List Segment) :
    ∀ (b : Finset String),
      (segs.filter (fun s => segmentKey s != "")).foldl seenFoldStep b =
        segs.foldl seenFoldStep b := by
  induction segs with
  | nil => intro b; rfl
  | cons s rest ih =>
    intro b
    by_cases h : segmentKey s = ""
    · have hf : (segmentKey s != "") = false := by simp [h]
      rw [List.filter_cons, hf]
      simp only [Bool.false_eq_true, if_neg (by simp : ¬ False)]
      rw [List.foldl_cons, ih]
      have hstep : seenFoldStep b s = b := by simp [seenFoldStep, h]
      rw [hstep]
    · have hf : (segmentKey s != "") = true := by simp [h]
      rw [List.filter_cons, hf]
      simp only [if_pos trivial]
      rw [List.foldl_cons, List.foldl_cons, ih]

/-- Branch analysis of one poll tick: either the call is a no-op pair, or
the resulting seen set and routed list are exactly those of the filtering
loop. -/
theorem pollTranscription_cases (st : RouterState) (snap : List Segment) :
    pollTranscription st snap = (st, []) ∨
      ((pollTranscription st snap).1.seenSegmentIds =
          (collectNew st.seenSegmentIds snap).2 ∧
        (pollTranscription st snap).2 = (collectNew st.seenSegmentIds snap).1) := by
  simp only [pollTranscription]
  by_cases h1 : st.currentMeetingId = ""
  · rw [if_pos h1]
    exact Or.inl rfl
  rw [if_neg h1]
  by_cases h2 : st.selectedVersionId = "" ∨ st.activationTime = none
  · rw [if_pos h2]
    exact Or.inl rfl
  rw [if_neg h2]
  by_cases h3 : snap = []
  · rw [if_pos h3]
    exact Or.inl rfl
  rw [if_neg h3]
  by_cases h4 : (collectNew st.seenSegmentIds snap).1 = []
  · rw [if_pos h4]
    exact Or.inr ⟨rfl, h4.symm⟩
  · rw [if_neg h4]
    exact Or.inr ⟨rfl, rfl⟩

/-- Per-call routing facts: the keys of the routed segments are distinct,
none of them was seen before the call or is falsy, and the seen set after
the call contains both the old seen set and all routed keys. -/
theorem pollTranscription_spec (st : RouterState) (snap : List Segment) :
    ((pollTranscription st snap).2.map segmentKey).Nodup ∧
      (∀ s ∈ (pollTranscription st snap).2,
        segmentKey s ∉ st.seenSegmentIds ∧ segmentKey s ≠ "") ∧
      (∀ k, k ∈ st.seenSegmentIds ∨ k ∈ (pollTranscription st snap).2.map segmentKey →
        k ∈ (pollTranscription st snap).1.seenSegmentIds) := by
  rcases pollTranscription_cases st snap with h | ⟨hseen, hnew⟩
  · rw [h]
    refine ⟨by simp, by simp, ?_⟩
    intro k hk
    simpa using hk
  · rw [hseen, hnew]
    refine ⟨collectNew_fst_nodup snap st.seenSegmentIds, ?_, ?_⟩
    · intro s hs
      have := collectNew_fst_not_seen snap st.seenSegmentIds s hs
      exact ⟨this.2, this.1⟩
    · intro k hk
      exact (collectNew_mem_snd snap st.seenSegmentIds k).mpr hk

/-- C1: during a single activation period, over any sequence of
`route_increment` calls, each segment identifier is appended to the active
transcript at most once, and an identifier already in `seen_segment_ids`
is never appended again. -/
theorem claim1_no_duplicate_routing (st : RouterState) (snaps : List (List Segment)) :
    (runPolls st snaps).2.Nodup ∧
      ∀ k ∈ st.seenSegmentIds, k ∉ (runPolls st snaps).2 := by
  induction snaps generalizing st with
  | nil => simp [runPolls]
  | cons snap rest ih =>
    obtain ⟨hnodup, hnew, hmono⟩ := pollTranscription_spec st snap
    obtain ⟨ihnodup, ihseen⟩ := ih (pollTranscription st snap).1
    constructor
    · show ((pollTranscription st snap).2.map segmentKey ++
        (runPolls (pollTranscription st snap).1 rest).2).Nodup
      rw [List.nodup_append]
      refine ⟨hnodup, ihnodup, ?_⟩
      intro x hx hx2
      exact ihseen x (hmono x (Or.inr hx)) hx2
    · intro k hk
      show k ∉ (pollTranscription st snap).2.map segmentKey ++
        (runPolls (pollTranscription st snap).1 rest).2
      rw [List.mem_append]
      rintro (hkm | hkr)
      · obtain ⟨s, hs, hkey⟩ := List.mem_map.mp hkm
        exact (hnew s hs).1 (hkey ▸ hk)
      · exact ihseen k (hmono k (Or.inl hk)) hkr

/-- Witness for C1 at a concrete activation state and snapshot sequence. -/
theorem claim1_no_duplicate_routing_witness :
    "a" ∈ ({"a"} : Finset String) ∧
      "a" ∉ (runPolls ⟨"m", "v", "V", "", "", "", some 0, {"a"}⟩
        [[⟨some "a", none, none, none⟩, ⟨some "b", none, some "X", some "t"⟩]]).2 :=
  ⟨by decide, (claim1_no_duplicate_routing ⟨"m", "v", "V", "", "", "", some 0, {"a"}⟩
    [[⟨some "a", none, none, none⟩, ⟨some "b", none, some "X", some "t"⟩]]).2
      "a" (by decide)⟩

/-- C3: routing with no active subject leaves the whole router state
unchanged, appends nothing and triggers no push; activating an unknown
subject id is a no-op that leaves the router state unchanged and schedules
no baseline. -/
theorem claim3_idle_noop :
    (∀ (st : RouterState) (segs : List Segment),
        st.selectedVersionId = "" ∨ st.activationTime = none →
          pollTranscription st segs = (st, [])) ∧
      (∀ (store : VersionStore) (st : RouterState) (vid : String) (now : Nat),
          dictGet store.versions vid = none →
            selectVersion store st vid now = (st, false)) := by
  constructor
  · intro st segs h
    unfold pollTranscription
    by_cases h1 : st.currentMeetingId = ""
    · rw [if_pos h1]
    · rw [if_neg h1, if_pos h]
  · intro store st vid now h
    unfold selectVersion
    rw [h]

/-- Witness for C3 at a concrete idle state and an unknown id. -/
theorem claim3_idle_noop_witness :
    pollTranscription ⟨"m", "", "V", "", "", "", none, ∅⟩
        [⟨some "a", none, none, none⟩] =
      (⟨"m", "", "V", "", "", "", none, ∅⟩, []) ∧
      selectVersion ⟨[], []⟩ ⟨"m", "v", "V", "", "", "", some 1, ∅⟩ "nope" 5 =
        (⟨"m", "v", "V", "", "", "", some 1, ∅⟩, false) :=
  ⟨claim3_idle_noop.1 _ _ (Or.inl rfl), claim3_idle_noop.2 _ _ _ _ rfl⟩

/-- C2: an active poll routes exactly the unseen truthy-key segments of the
snapshot, rendering each as speaker (defaulted to Unknown), a colon and the
text, joining them with newlines in snapshot order and appending them to
the transcript with a separating newline exactly when it was nonempty. -/
theorem claim2_increment_format (st : RouterState) (snap : List Segment)
    (h1 : st.currentMeetingId ≠ "") (h2 : st.selectedVersionId ≠ "")
    (h3 : st.activationTime ≠ none) (h4 : snap ≠ []) :
    (pollTranscription st snap).2 = (collectNew st.seenSegmentIds snap).1 ∧
      (pollTranscription st snap).1.currentTranscript =
        specAppendIncrement st.currentTranscript
          ((collectNew st.seenSegmentIds snap).1.map renderSegment) := by
  have h2b : ¬ (st.selectedVersionId = "" ∨ st.activationTime = none) := by
    rintro (h | h)
    · exact h2 h
    · exact h3 h
  simp only [pollTranscription]
  rw [if_neg h1, if_neg h2b, if_neg h4]
  by_cases h5 : (collectNew st.seenSegmentIds snap).1 = []
  · rw [if_pos h5]
    refine ⟨h5.symm, ?_⟩
    simp [specAppendIncrement, h5]
  · rw [if_neg h5]
    refine ⟨rfl, ?_⟩
    have hlines : (collectNew st.seenSegmentIds snap).1.map renderSegment ≠ [] := by
      simp [h5]
    show (if st.currentTranscript = "" then
        String.intercalate "\n" ((collectNew st.seenSegmentIds snap).1.map renderSegment)
      else st.currentTranscript ++ "\n" ++
        String.intercalate "\n" ((collectNew st.seenSegmentIds snap).1.map renderSegment)) =
      specAppendIncrement st.currentTranscript
        ((collectNew st.seenSegmentIds snap).1.map renderSegment)
    rw [specAppendIncrement, if_neg hlines]

/-- Witness for C2: the two-call scenario from the specification, ending in
the transcript A colon hi, newline, B colon yo. -/
theorem claim2_increment_format_witness :
    (pollTranscription
        (pollTranscription ⟨"m", "v1", "V1", "", "", "", some 0, ∅⟩
          [⟨some "1", none, some "A", some "hi"⟩]).1
        [⟨some "1", none, some "A", some "hi"⟩, ⟨some "2", none, some "B", some "yo"⟩]).2 =
      (collectNew
        (pollTranscription ⟨"m", "v1", "V1", "", "", "", some 0, ∅⟩
          [⟨some "1", none, some "A", some "hi"⟩]).1.seenSegmentIds
        [⟨some "1", none, some "A", some "hi"⟩, ⟨some "2", none, some "B", some "yo"⟩]).1 ∧
      (pollTranscription
        (pollTranscription ⟨"m", "v1", "V1", "", "", "", some 0, ∅⟩
          [⟨some "1", none, some "A", some "hi"⟩]).1
        [⟨some "1", none, some "A", some "hi"⟩, ⟨some "2", none, some "B", some "yo"⟩]).1.currentTranscript =
        specAppendIncrement
          (pollTranscription ⟨"m", "v1", "V1", "", "", "", some 0, ∅⟩
            [⟨some "1", none, some "A", some "hi"⟩]).1.currentTranscript
          ((collectNew
            (pollTranscription ⟨"m", "v1", "V1", "", "", "", some 0, ∅⟩
              [⟨some "1", none, some "A", some "hi"⟩]).1.seenSegmentIds
            [⟨some "1", none, some "A", some "hi"⟩,
              ⟨some "2", none, some "B", some "yo"⟩]).1.map renderSegment) ∧
      (pollTranscription
        (pollTranscription ⟨"m", "v1", "V1", "", "", "", some 0, ∅⟩
          [⟨some "1", none, some "A", some "hi"⟩]).1
        [⟨some "1", none, some "A", some "hi"⟩,
          ⟨some "2", none, some "B", some "yo"⟩]).1.currentTranscript = "A: hi\nB: yo" := by
  have h := claim2_increment_format
    (pollTranscription ⟨"m", "v1", "V1", "", "", "", some 0, ∅⟩
      [⟨some "1", none, some "A", some "hi"⟩]).1
    [⟨some "1", none, some "A", some "hi"⟩, ⟨some "2", none, some "B", some "yo"⟩]
    (by decide) (by decide) (by decide) (by decide)
  exact ⟨h.1, h.2, by decide⟩

/-- C4: the baseline adds every truthy segment key of the fetched snapshot
to the seen set, never touches the transcript, and running it twice on an
unchanged snapshot equals running it once. -/
theorem claim4_baseline_idempotent (st : RouterState) (snap : List Segment)
    (h : st.currentMeetingId ≠ "") :
    (markCurrentSegmentsAsSeen st snap).currentTranscript = st.currentTranscript ∧
      (∀ s ∈ snap, segmentKey s ≠ "" →
        segmentKey s ∈ (markCurrentSegmentsAsSeen st snap).seenSegmentIds) ∧
      markCurrentSegmentsAsSeen (markCurrentSegmentsAsSeen st snap) snap =
        markCurrentSegmentsAsSeen st snap := by
  by_cases h2 : snap = []
  · subst h2
    refine ⟨?_, ?_, ?_⟩
    · simp [markCurrentSegmentsAsSeen]
    · intro s hs
      simp at hs
    · simp [markCurrentSegmentsAsSeen]
  · have heq : markCurrentSegmentsAsSeen st snap =
        { st with seenSegmentIds := snap.foldl seenFoldStep st.seenSegmentIds } := by
      simp only [markCurrentSegmentsAsSeen, if_neg h, if_neg h2]
    refine ⟨by rw [heq], ?_, ?_⟩
    · intro s hs hk
      rw [heq]
      exact (foldl_seenFoldStep_mem snap st.seenSegmentIds (segmentKey s)).mpr
        (Or.inr ⟨s, hs, rfl, hk⟩)
    · rw [heq]
      have h' : ({ st with
          seenSegmentIds := snap.foldl seenFoldStep st.seenSegmentIds } :
            RouterState).currentMeetingId ≠ "" := h
      have heq2 : markCurrentSegmentsAsSeen
          { st with seenSegmentIds := snap.foldl seenFoldStep st.seenSegmentIds } snap =
          { st with seenSegmentIds :=
              snap.foldl seenFoldStep (snap.foldl seenFoldStep st.seenSegmentIds) } := by
        simp only [markCurrentSegmentsAsSeen, if_neg h', if_neg h2]
      rw [heq2]
      have hstable : snap.foldl seenFoldStep (snap.foldl seenFoldStep st.seenSegmentIds) =
          snap.foldl seenFoldStep st.seenSegmentIds :=
        foldl_seenFoldStep_stable snap _ (fun s hs hk =>
          (foldl_seenFoldStep_mem snap st.seenSegmentIds (segmentKey s)).mpr
            (Or.inr ⟨s, hs, rfl, hk⟩))
      rw [hstable]

/-- Witness for C4 at a concrete state and snapshot. -/
theorem claim4_baseline_idempotent_witness :
    (markCurrentSegmentsAsSeen ⟨"m", "v", "V", "", "", "T", some 0, ∅⟩
        [⟨some "1", none, none, none⟩]).currentTranscript = "T" ∧
      markCurrentSegmentsAsSeen
          (markCurrentSegmentsAsSeen ⟨"m", "v", "V", "", "", "T", some 0, ∅⟩
            [⟨some "1", none, none, none⟩]) [⟨some "1", none, none, none⟩] =
        markCurrentSegmentsAsSeen ⟨"m", "v", "V", "", "", "T", some 0, ∅⟩
          [⟨some "1", none, none, none⟩] := by
  have h := claim4_baseline_idempotent ⟨"m", "v", "V", "", "", "T", some 0, ∅⟩
    [⟨some "1", none, none, none⟩] (by decide)
  exact ⟨h.1, h.2.2⟩

/-- C5: activating a subject found in the store loads its data, sets the
activation time, resets the seen set to empty and schedules a baseline; a
baseline run right after marks exactly the truthy keys of the
snapshot-at-switch-time as seen. -/
theorem claim5_activation_reset (store : VersionStore) (st : RouterState)
    (vid : String) (now : Nat) (v : Version)
    (h : dictGet store.versions vid = some v) :
    selectVersion store st vid now =
      ({ st with
          selectedVersionId := v.id,
          selectedVersionName := v.name,
          currentNotes := v.user_notes,
          currentAiNotes := v.ai_notes,
          currentTranscript := v.transcript,
          activationTime := some now,
          seenSegmentIds := ∅ }, true) ∧
      (st.currentMeetingId ≠ "" → ∀ (snap : List Segment) (k : String),
        (k ∈ (markCurrentSegmentsAsSeen (selectVersion store st vid now).1
            snap).seenSegmentIds ↔
          ∃ s ∈ snap, segmentKey s = k ∧ k ≠ "")) := by
  have hsel : selectVersion store st vid now =
      ({ st with
          selectedVersionId := v.id,
          selectedVersionName := v.name,
          currentNotes := v.user_notes,
          currentAiNotes := v.ai_notes,
          currentTranscript := v.transcript,
          activationTime := some now,
          seenSegmentIds := ∅ }, true) := by
    simp only [selectVersion, h]
  refine ⟨hsel, ?_⟩
  intro hm snap k
  rw [hsel]
  by_cases h2 : snap = []
  · subst h2
    simp [markCurrentSegmentsAsSeen]
  · have hm2 : ({ st with
        selectedVersionId := v.id,
        selectedVersionName := v.name,
        currentNotes := v.user_notes,
        currentAiNotes := v.ai_notes,
        currentTranscript := v.transcript,
        activationTime := some now,
        seenSegmentIds := ∅ } : RouterState).currentMeetingId ≠ "" := hm
    simp only [markCurrentSegmentsAsSeen, if_neg hm2, if_neg h2]
    rw [foldl_seenFoldStep_mem]
    simp

/-- Witness for C5 at a concrete store, state and snapshot. -/
theorem claim5_activation_reset_witness :
    selectVersion ⟨[("v2", ⟨"v2", "Shot 2", "n", "a", "t"⟩)], ["v2"]⟩
        ⟨"m", "v1", "V1", "", "", "old", some 3, {"x"}⟩ "v2" 7 =
      (⟨"m", "v2", "Shot 2", "n", "a", "t", some 7, ∅⟩, true) ∧
      ("1" ∈ (markCurrentSegmentsAsSeen
          (selectVersion ⟨[("v2", ⟨"v2", "Shot 2", "n", "a", "t"⟩)], ["v2"]⟩
            ⟨"m", "v1", "V1", "", "", "old", some 3, {"x"}⟩ "v2" 7).1
          [⟨some "1", none, none, none⟩]).seenSegmentIds ↔
        ∃ s ∈ [(⟨some "1", none, none, none⟩ : Segment)],
          segmentKey s = "1" ∧ "1" ≠ "") := by
  have h := claim5_activation_reset
    ⟨[("v2", ⟨"v2", "Shot 2", "n", "a", "t"⟩)], ["v2"]⟩
    ⟨"m", "v1", "V1", "", "", "old", some 3, {"x"}⟩ "v2" 7
    ⟨"v2", "Shot 2", "n", "a", "t"⟩ (by decide)
  exact ⟨h.1, h.2 (by decide) [⟨some "1", none, none, none⟩] "1"⟩

/-- C10: a segment whose id is absent or falsy and whose timestamp is
absent or empty is invisible to routing and to the baseline: removing all
such segments from the snapshot changes neither operation, every routed
segment has a truthy key, and the empty key is never added to the seen set
by either operation. -/
theorem claim10_falsy_segment_skipped (st : RouterState) (snap : List Segment) :
    pollTranscription st snap =
        pollTranscription st (snap.filter (fun s => segmentKey s != "")) ∧
      markCurrentSegmentsAsSeen st snap =
        markCurrentSegmentsAsSeen st (snap.filter (fun s => segmentKey s != "")) ∧
      (∀ s ∈ (pollTranscription st snap).2, segmentKey s ≠ "") ∧
      ("" ∈ (pollTranscription st snap).1.seenSegmentIds ↔
        "" ∈ st.seenSegmentIds) ∧
      ("" ∈ (markCurrentSegmentsAsSeen st snap).seenSegmentIds ↔
        "" ∈ st.seenSegmentIds) := by
  refine ⟨?_, ?_, ?_, ?_, ?_⟩
  · simp only [pollTranscription]
    by_cases h1 : st.currentMeetingId = ""
    · rw [if_pos h1, if_pos h1]
    rw [if_neg h1, if_neg h1]
    by_cases h2 : st.selectedVersionId = "" ∨ st.activationTime = none
    · rw [if_pos h2, if_pos h2]
    rw [if_neg h2, if_neg h2]
    rw [collectNew_filter_key snap st.seenSegmentIds]
    by_cases h3 : snap = []
    · subst h3
      rfl
    by_cases h4 : snap.filter (fun s => segmentKey s != "") = []
    · rw [if_neg h3, if_pos h4]
      have hc : collectNew st.seenSegmentIds snap = ([], st.seenSegmentIds) := by
        rw [← collectNew_filter_key snap st.seenSegmentIds, h4]
        rfl
      simp [hc]
    · rw [if_neg h3, if_neg h4]
  · simp only [markCurrentSegmentsAsSeen]
    by_cases h1 : st.currentMeetingId = ""
    · rw [if_pos h1, if_pos h1]
    rw [if_neg h1, if_neg h1]
    rw [foldl_seenFoldStep_filter snap st.seenSegmentIds]
    by_cases h3 : snap = []
    · subst h3
      rfl
    by_cases h4 : snap.filter (fun s => segmentKey s != "") = []
    · rw [if_neg h3, if_pos h4]
      have hc : snap.foldl seenFoldStep st.seenSegmentIds = st.seenSegmentIds := by
        rw [← foldl_seenFoldStep_filter snap st.seenSegmentIds, h4]
        rfl
      rw [hc]
    · rw [if_neg h3, if_neg h4]
  · intro s hs
    exact ((pollTranscription_spec st snap).2.1 s hs).2
  · rcases pollTranscription_cases st snap with h | ⟨hseen, _⟩
    · rw [h]
    · rw [hseen, collectNew_mem_snd]
      constructor
      · rintro (hb | hm)
        · exact hb
        · obtain ⟨s, hs, hkey⟩ := List.mem_map.mp hm
          exact absurd hkey (collectNew_fst_not_seen snap st.seenSegmentIds s hs).1
      · exact Or.inl
  · simp only [markCurrentSegmentsAsSeen]
    by_cases h1 : st.currentMeetingId = ""
    · rw [if_pos h1]
    rw [if_neg h1]
    by_cases h3 : snap = []
    · rw [if_pos h3]
    rw [if_neg h3]
    show "" ∈ snap.foldl seenFoldStep st.seenSegmentIds ↔ "" ∈ st.seenSegmentIds
    rw [foldl_seenFoldStep_mem]
    constructor
    · rintro (hb | ⟨s, hs, _, hne⟩)
      · exact hb
      · exact absurd rfl hne
    · exact Or.inl

/-- Witness for C10 at a concrete state and a snapshot containing a segment
with no id and no timestamp. -/
theorem claim10_falsy_segment_skipped_witness :
    pollTranscription ⟨"m", "v", "V", "", "", "", some 0, ∅⟩
        [⟨none, none, some "A", some "lost"⟩, ⟨some "1", none, some "B", some "kept"⟩] =
      pollTranscription ⟨"m", "v", "V", "", "", "", some 0, ∅⟩
        ([⟨none, none, some "A", some "lost"⟩,
          ⟨some "1", none, some "B", some "kept"⟩].filter
            (fun s => segmentKey s != "")) :=
  (claim10_falsy_segment_skipped ⟨"m", "v", "V", "", "", "", some 0, ∅⟩
    [⟨none, none, some "A", some "lost"⟩, ⟨some "1", none, some "B", some "kept"⟩]).1

/-- The embedded export and the amended per-version rule agree. -/
theorem versionRows_eq_amended (v : Version) :
    versionRows v = amendedVersionRows v := by
  unfold versionRows amendedVersionRows
  by_cases h : v.user_notes = ""
  · simp [h]
  · have hsp := pySplit_ne_nil v.user_notes "\n\n"
    have hfun : (fun n : String =>
        if pyStrip n ≠ "" then some [v.name, pyStrip n, v.transcript] else none) =
        (fun n : String =>
          if pyStrip n = "" then none else some [v.name, pyStrip n, v.transcript]) := by
      funext n
      by_cases hn : pyStrip n = "" <;> simp [hn]
    simp only [h, ne_eq, not_false_eq_true, if_pos trivial, if_neg h, hsp, hfun]
    simp [hsp]

/-- C6 (counterexample): on a version whose notes end with the blank-line
delimiter, the export drops the trailing blank chunk, while the claim as
stated emits a row for it. -/
theorem claim6_export_counterexample :
    export_csv ⟨[("v", ⟨"v", "N", "a\n\n", "", "T"⟩)], ["v"]⟩ ≠
      claimExportRows ⟨[("v", ⟨"v", "N", "a\n\n", "", "T"⟩)], ["v"]⟩ := by
  decide

/-- C6 (amended): the export emits the header row then, per version in
store order, one row per nonblank note chunk with the note trimmed, and a
single empty-note row for a version without notes; scenario D holds as
stated. -/
theorem claim6_export_amended :
    (∀ st : VersionStore, export_csv st = amendedExportRows st) ∧
      export_csv ⟨[("v", ⟨"v", "N", "User: a\n\nUser: b", "", "T"⟩)], ["v"]⟩ =
        some [["Version", "Note", "Transcript"], ["N", "User: a", "T"],
          ["N", "User: b", "T"]] := by
  constructor
  · intro st
    unfold export_csv amendedExportRows
    have hfun : versionRows = amendedVersionRows := funext versionRows_eq_amended
    rw [hfun]
  · decide

/-- Lookup fails exactly when the key is absent from the dictionary. -/
theorem dictGet_eq_none_iff (d : List (String × Version)) (k : String) :
    dictGet d k = none ↔ k ∉ d.map Prod.fst := by
  induction d with
  | nil => simp [dictGet]
  | cons p rest ih =>
    obtain ⟨k2, v⟩ := p
    by_cases h : k2 = k
    · subst h
      simp [dictGet]
    · simp [dictGet, h, ih, Ne.symm h]

/-- Lookup succeeds exactly when the key is present. -/
theorem dictGet_isSome_iff (d : List (String × Version)) (k : String) :
    (dictGet d k).isSome ↔ k ∈ d.map Prod.fst := by
  cases hd : dictGet d k with
  | none =>
    simp only [Option.isSome_none, Bool.false_eq_true, false_iff]
    exact (dictGet_eq_none_iff d k).mp hd
  | some v =>
    simp only [Option.isSome_some, true_iff]
    by_contra hmem
    rw [(dictGet_eq_none_iff d k).mpr hmem] at hd
    exact Option.noConfusion hd

/-- Setting an existing key keeps the key list unchanged. -/
theorem map_fst_dictSet_mem (d : List (String × Version)) (k : String) (v : Version)
    (h : k ∈ d.map Prod.fst) : (dictSet d k v).map Prod.fst = d.map Prod.fst := by
  induction d with
  | nil => simp at h
  | cons p rest ih =>
    obtain ⟨k2, v2⟩ := p
    by_cases hk : k2 = k
    · subst hk
      simp [dictSet]
    · simp only [List.map_cons, List.mem_cons] at h
      rcases h with h | h
    
      · exact absurd h.symm hk
      · simp [dictSet, hk, ih h]

/-- Setting a fresh key appends it to the key list. -/
theorem map_fst_dictSet_not_mem (d : List (String × Version)) (k : String)
    (v : Version) (h : k ∉ d.map Prod.fst) :
    (dictSet d k v).map Prod.fst = d.map Prod.fst ++ [k] := by
  induction d with
  | nil => simp [dictSet]
  | cons p rest ih =>
    obtain ⟨k2, v2⟩ := p
    simp only [List.map_cons, List.mem_cons, not_or] at h
    simp [dictSet, Ne.symm h.1, ih h.2]

/-- Deleting a key erases its first occurrence from the key list. -/
theorem map_fst_dictDelete (d : List (String × Version)) (k : String) :
    (dictDelete d k).map Prod.fst = (d.map Prod.fst).erase k := by
  induction d with
  | nil => simp [dictDelete]
  | cons p rest ih =>
    obtain ⟨k2, v2⟩ := p
    by_cases hk : k2 = k
    · subst hk
      simp [dictDelete, List.erase_cons]
    · simp [dictDelete, hk, List.erase_cons, ih]

/-- A pair of the updated dictionary is an old pair or the new binding. -/
theorem mem_dictSet (d : List (String × Version)) (k : String) (v : Version) :
    ∀ p ∈ dictSet d k v, p ∈ d ∨ p = (k, v) := by
  induction d with
  | nil => simp [dictSet]
  | cons q rest ih =>
    obtain ⟨k2, v2⟩ := q
    intro p hp
    by_cases hk : k2 = k
    · subst hk
      have hp2 : p ∈ (k2, v) :: rest := by
        simpa [dictSet] using hp
      rcases List.mem_cons.mp hp2 with heq | hmem
      · exact Or.inr heq
      · exact Or.inl (List.mem_cons_of_mem _ hmem)
    · simp only [dictSet, if_neg hk, List.mem_cons] at hp
      rcases hp with rfl | hp
      · exact Or.inl (List.mem_cons_self _ _)
      · rcases ih p hp with h | h
        · exact Or.inl (List.mem_cons_of_mem _ h)
        · exact Or.inr h

/-- Order list produced by the upload fold: the accumulated order followed
by the ids of the pairs, in file order. -/
theorem uploadFold_order (pairs : List (String × String)) :
    ∀ acc : VersionStore,
      (pairs.foldl uploadStep acc).versionOrder =
        acc.versionOrder ++ pairs.map Prod.fst := by
  induction pairs with
  | nil => intro acc; simp
  | cons p rest ih =>
    intro acc
    rw [List.foldl_cons, ih]
    simp [uploadStep]

/-- Every version stored by the upload fold is an accumulated one or comes
from one of the pairs, with empty notes and transcript. -/
theorem mem_uploadFold_versions (pairs : List (String × String)) :
    ∀ (acc : VersionStore), ∀ p ∈ (pairs.foldl uploadStep acc).versions,
      p ∈ acc.versions ∨ ∃ q ∈ pairs, p = (q.1, ⟨q.1, q.2, "", "", ""⟩) := by
  induction pairs with
  | nil =>
    intro acc p hp
    exact Or.inl hp
  | cons q rest ih =>
    intro acc p hp
    rw [List.foldl_cons] at hp
    rcases ih (uploadStep acc q) p hp with h | ⟨q2, hq2, rfl⟩
    · rcases mem_dictSet acc.versions q.1 ⟨q.1, q.2, "", "", ""⟩ p h with h2 | h2
      · exact Or.inl h2
      · exact Or.inr ⟨q, List.mem_cons_self _ _, h2⟩
    · exact Or.inr ⟨q2, List.mem_cons_of_mem _ hq2, rfl⟩

/-- The embedded per-row import rule coincides with the rule in the words
of claim C7. -/
theorem rowToVersionData_eq_spec (idIdx : Option Nat) (row : List String) :
    rowToVersionData idIdx row = specRowVersion idIdx row := by
  have h0 : pyStrip "" = "" := rfl
  cases row with
  | nil =>
    show none = specRowVersion idIdx []
    simp [specRowVersion, h0]
  | cons c0 rest =>
    have hhead : ((c0 :: rest).headD "") = c0 := rfl
    by_cases hname : pyStrip c0 = ""
    · simp [rowToVersionData, specRowVersion, hhead, hname]
    · cases idIdx with
      | none => simp [rowToVersionData, specRowVersion, hhead, hname]
      | some i =>
        by_cases hlen : i < (c0 :: rest).length
        · by_cases hx : pyStrip ((c0 :: rest)[i]?.getD "") = ""
          · simp [rowToVersionData, specRowVersion, hhead, hname, hlen, hx]
          · simp [rowToVersionData, specRowVersion, hhead, hname, hlen, hx]
            intro hcon
            simp only [List.length_cons] at hlen
            exact absurd hcon (by omega)
        · have hget2 : (c0 :: rest)[i]? = none :=
            List.getElem?_eq_none (Nat.le_of_not_lt hlen)
          simp [rowToVersionData, specRowVersion, hhead, hname, hlen, hget2, h0]

/-- C7: a version CSV import skips the header row, drops rows with a blank
first column, and creates one version per remaining row in file order,
with the display name the trimmed first column and the identifier the
trimmed ID-column value when that column exists and holds a nonblank value
for the row, else the name. -/
theorem claim7_csv_import (st : VersionStore) (header : List String)
    (dataRows : List (List String)) (h : header ≠ []) :
    upload_csv st (header :: dataRows) =
      some ((dataRows.filterMap (specRowVersion (findIdColumn header))).foldl
        uploadStep ⟨[], []⟩) ∧
      (upload_csv st (header :: dataRows)).map VersionStore.versionOrder =
        some ((dataRows.filterMap
          (specRowVersion (findIdColumn header))).map Prod.fst) := by
  have hfun : rowToVersionData (findIdColumn header) =
      specRowVersion (findIdColumn header) :=
    funext (rowToVersionData_eq_spec (findIdColumn header))
  have hup : upload_csv st (header :: dataRows) =
      some ((dataRows.filterMap (specRowVersion (findIdColumn header))).foldl
        uploadStep ⟨[], []⟩) := by
    show (if header = [] then none
      else some ((dataRows.filterMap
        (rowToVersionData (findIdColumn header))).foldl uploadStep ⟨[], []⟩)) = _
    rw [if_neg h, hfun]
  refine ⟨hup, ?_⟩
  rw [hup]
  show some (((dataRows.filterMap
      (specRowVersion (findIdColumn header))).foldl uploadStep
        ⟨[], []⟩).versionOrder) = _
  rw [uploadFold_order]
  rfl

/-- Witness for C7 on a concrete CSV with an ID column, a blank-name row
and a row without an ID value. -/
theorem claim7_csv_import_witness :
    upload_csv ⟨[], []⟩ [["Name", "ID"], [" A ", "x"], ["", "y"], ["B"]] =
      some (([[" A ", "x"], ["", "y"], ["B"]].filterMap
        (specRowVersion (findIdColumn ["Name", "ID"]))).foldl
          uploadStep ⟨[], []⟩) ∧
      (upload_csv ⟨[], []⟩ [["Name", "ID"], [" A ", "x"], ["", "y"], ["B"]]).map
          VersionStore.versionOrder =
        some (([[" A ", "x"], ["", "y"], ["B"]].filterMap
          (specRowVersion (findIdColumn ["Name", "ID"]))).map Prod.fst) :=
  claim7_csv_import ⟨[], []⟩ ["Name", "ID"] [[" A ", "x"], ["", "y"], ["B"]]
    (by decide)

/-- The upload fold preserves the store invariant when the incoming ids are
duplicate-free and fresh for the accumulator. -/
theorem uploadFold_inv (pairs : List (String × String)) :
    ∀ acc : VersionStore, StoreInv acc →
      (∀ p ∈ pairs, p.1 ∉ storeKeys acc) → (pairs.map Prod.fst).Nodup →
        StoreInv (pairs.foldl uploadStep acc) := by
  induction pairs with
  | nil =>
    intro acc hinv _ _
    exact hinv
  | cons p rest ih =>
    intro acc hinv hfresh hnodup
    obtain ⟨ho, hk, hok, hko⟩ := hinv
    have hp1 : p.1 ∉ storeKeys acc := hfresh p (List.mem_cons_self _ _)
    have hp1o : p.1 ∉ acc.versionOrder := fun hmem => hp1 (hok p.1 hmem)
    have hkeys : storeKeys (uploadStep acc p) = storeKeys acc ++ [p.1] :=
      map_fst_dictSet_not_mem acc.versions p.1 ⟨p.1, p.2, "", "", ""⟩ hp1
    have horder : (uploadStep acc p).versionOrder = acc.versionOrder ++ [p.1] := rfl
    simp only [List.map_cons, List.nodup_cons] at hnodup
    rw [List.foldl_cons]
    refine ih (uploadStep acc p) ⟨?_, ?_, ?_, ?_⟩ ?_ hnodup.2
    · rw [horder]
      simp [List.nodup_append, ho, hp1o]
    · rw [hkeys]
      simp [List.nodup_append, hk, hp1]
    · intro k hmem
      rw [horder] at hmem
      rw [hkeys]
      simp only [List.mem_append, List.mem_singleton] at hmem ⊢
      rcases hmem with hmem | hmem
      · exact Or.inl (hok k hmem)
      · exact Or.inr hmem
    · intro k hmem
      rw [hkeys] at hmem
      rw [horder]
      simp only [List.mem_append, List.mem_singleton] at hmem ⊢
      rcases hmem with hmem | hmem
      · exact Or.inl (hko k hmem)
      · exact Or.inr hmem
    · intro q hq
      rw [hkeys]
      simp only [List.mem_append, List.mem_singleton, not_or]
      refine ⟨hfresh q (List.mem_cons_of_mem _ hq), ?_⟩
      intro heq
      exact hnodup.1 (heq ▸ List.mem_map_of_mem Prod.fst hq)

/-- C8 (counterexample): uploading a CSV whose rows repeat an identifier
leaves the order list holding the id twice while the dictionary holds it
once, breaking the order-matches-keys invariant. -/
theorem claim8_store_invariant_counterexample :
    StoreInv ⟨[], []⟩ ∧
      upload_csv ⟨[], []⟩ [["Name"], ["A"], ["A"]] =
        some ⟨[("A", ⟨"A", "A", "", "", ""⟩)], ["A", "A"]⟩ ∧
      ¬ StoreInv ⟨[("A", ⟨"A", "A", "", "", ""⟩)], ["A", "A"]⟩ := by
  refine ⟨by decide, by decide, by decide⟩

/-- C8 (amended): the order list matches the dictionary keys exactly, with
no duplicates, and every exposed store operation preserves this —
creating a version, deleting a version, clearing, and a CSV upload whose
derived identifiers are distinct; an upload with repeated identifiers
violates it. -/
theorem claim8_store_invariant_amended :
    (∀ (st : VersionStore) (v : Version),
        StoreInv st → StoreInv (create_version st v)) ∧
      (∀ (st S : VersionStore) (vid : String), StoreInv st →
        delete_version st vid = some S → StoreInv S) ∧
      (∀ st : VersionStore, StoreInv (clear_versions st)) ∧
      (∀ (st S : VersionStore) (header : List String)
          (dataRows : List (List String)),
        ((dataRows.filterMap
          (rowToVersionData (findIdColumn header))).map Prod.fst).Nodup →
        upload_csv st (header :: dataRows) = some S → StoreInv S) := by
  refine ⟨?_, ?_, ?_, ?_⟩
  · intro st v hinv
    obtain ⟨ho, hk, hok, hko⟩ := hinv
    unfold create_version
    by_cases h : (dictGet st.versions v.id).isSome
    · rw [if_pos h]
      have hmem : v.id ∈ st.versions.map Prod.fst := (dictGet_isSome_iff _ _).mp h
      have hkeys : storeKeys { st with versions := dictSet st.versions v.id v } =
          storeKeys st :=
        map_fst_dictSet_mem st.versions v.id v hmem
      exact ⟨ho, by rw [hkeys]; exact hk,
        fun k hm => by rw [hkeys]; exact hok k hm,
        fun k hm => hko k (by rw [hkeys] at hm; exact hm)⟩
    · rw [if_neg h]
      have hnone : dictGet st.versions v.id = none := by
        cases hd : dictGet st.versions v.id with
        | none => rfl
        | some w => rw [hd] at h; simp at h
      have hmem : v.id ∉ storeKeys st :=
        (dictGet_eq_none_iff _ _).mp hnone
      have hmemo : v.id ∉ st.versionOrder := fun hm => hmem (hok v.id hm)
      have hkeys : storeKeys ⟨dictSet st.versions v.id v,
          st.versionOrder ++ [v.id]⟩ = storeKeys st ++ [v.id] :=
        map_fst_dictSet_not_mem st.versions v.id v hmem
      refine ⟨?_, ?_, ?_, ?_⟩
      · simp [List.nodup_append, ho, hmemo]
      · rw [hkeys]
        simp [List.nodup_append, hk, hmem]
      · intro k hm
        rw [hkeys]
        simp only [List.mem_append, List.mem_singleton] at hm ⊢
        rcases hm with hm | hm
        · exact Or.inl (hok k hm)
        · exact Or.inr hm
      · intro k hm
        rw [hkeys] at hm
        simp only [List.mem_append, List.mem_singleton] at hm ⊢
        rcases hm with hm | hm
        · exact Or.inl (hko k hm)
        · exact Or.inr hm
  · intro st S vid hinv hdel
    obtain ⟨ho, hk, hok, hko⟩ := hinv
    unfold delete_version at hdel
    by_cases h : (dictGet st.versions vid).isSome
    · rw [if_pos h] at hdel
      obtain rfl := Option.some.inj hdel
      have hkeys : storeKeys ⟨dictDelete st.versions vid,
          st.versionOrder.erase vid⟩ = (storeKeys st).erase vid :=
        map_fst_dictDelete st.versions vid
      refine ⟨ho.erase vid, ?_, ?_, ?_⟩
      · rw [hkeys]
        exact hk.erase vid
      · intro k hm
        rw [hkeys]
        rw [ho.mem_erase_iff] at hm
        rw [hk.mem_erase_iff]
        exact ⟨hm.1, hok k hm.2⟩
      · intro k hm
        rw [hkeys] at hm
        rw [hk.mem_erase_iff] at hm
        rw [ho.mem_erase_iff]
        exact ⟨hm.1, hko k hm.2⟩
    · rw [if_neg h] at hdel
      exact Option.noConfusion hdel
  · intro st
    exact ⟨List.nodup_nil, List.nodup_nil,
      by simp [clear_versions, storeKeys], by simp [clear_versions, storeKeys]⟩
  · intro st S header dataRows hnodup hup
    by_cases hh : header = []
    · rw [show upload_csv st (header :: dataRows) = none by
        show (if header = [] then none else _) = none
        rw [if_pos hh]] at hup
      exact Option.noConfusion hup
    · rw [show upload_csv st (header :: dataRows) =
          some ((dataRows.filterMap
            (rowToVersionData (findIdColumn header))).foldl uploadStep ⟨[], []⟩) by
        show (if header = [] then none else _) = _
        rw [if_neg hh]] at hup
      obtain rfl := Option.some.inj hup
      refine uploadFold_inv _ ⟨[], []⟩
        ⟨List.nodup_nil, List.nodup_nil, by simp [storeKeys], by simp [storeKeys]⟩
        ?_ hnodup
      intro p _
      simp [storeKeys]

/-- Witness for C8 applying the create-version part at a concrete store. -/
theorem claim8_store_invariant_amended_witness :
    StoreInv (create_version ⟨[], []⟩ ⟨"A", "A", "", "", ""⟩) :=
  claim8_store_invariant_amended.1 ⟨[], []⟩ ⟨"A", "A", "", "", ""⟩ (by decide)

/-- C9: a successful CSV upload replaces the whole store independently of
its previous contents, every stored version has empty notes and
transcript, and a file with a header but no valid data rows empties the
store. -/
theorem claim9_upload_replaces_store :
    (∀ (st st2 : VersionStore) (rows : List (List String)),
        upload_csv st rows = upload_csv st2 rows) ∧
      (∀ (st S : VersionStore) (rows : List (List String)),
        upload_csv st rows = some S →
          ∀ p ∈ S.versions, p.2.user_notes = "" ∧ p.2.ai_notes = "" ∧
            p.2.transcript = "") ∧
      (∀ (st S : VersionStore) (header : List String)
          (dataRows : List (List String)),
        upload_csv st (header :: dataRows) = some S →
          dataRows.filterMap (rowToVersionData (findIdColumn header)) = [] →
            S = ⟨[], []⟩) := by
  refine ⟨?_, ?_, ?_⟩
  · intro st st2 rows
    cases rows with
    | nil => rfl
    | cons header dataRows => rfl
  · intro st S rows hup
    cases rows with
    | nil => exact Option.noConfusion hup
    | cons header dataRows =>
      by_cases hh : header = []
      · rw [show upload_csv st (header :: dataRows) = none by
          show (if header = [] then none else _) = none
          rw [if_pos hh]] at hup
        exact Option.noConfusion hup
      · rw [show upload_csv st (header :: dataRows) =
            some ((dataRows.filterMap
              (rowToVersionData (findIdColumn header))).foldl
                uploadStep ⟨[], []⟩) by
          show (if header = [] then none else _) = _
          rw [if_neg hh]] at hup
        obtain rfl := Option.some.inj hup
        intro p hp
        rcases mem_uploadFold_versions _ ⟨[], []⟩ p hp with h | ⟨q, _, rfl⟩
        · simp at h
        · exact ⟨rfl, rfl, rfl⟩
  · intro st S header dataRows hup hempty
    by_cases hh : header = []
    · rw [show upload_csv st (header :: dataRows) = none by
        show (if header = [] then none else _) = none
        rw [if_pos hh]] at hup
      exact Option.noConfusion hup
    · rw [show upload_csv st (header :: dataRows) =
          some ((dataRows.filterMap
            (rowToVersionData (findIdColumn header))).foldl uploadStep ⟨[], []⟩) by
        show (if header = [] then none else _) = _
        rw [if_neg hh]] at hup
      rw [hempty] at hup
      exact (Option.some.inj hup).symm

/-- Witness for C9: uploading a file with a header and only an invalid row
over a populated store empties it. -/
theorem claim9_upload_replaces_store_witness :
    upload_csv ⟨[("old", ⟨"old", "Old", "n", "a", "t"⟩)], ["old"]⟩
        [["Name"], [""]] = some ⟨[], []⟩ ∧
      (⟨[], []⟩ : VersionStore) = ⟨[], []⟩ :=
  ⟨by decide,
    claim9_upload_replaces_store.2.2
      ⟨[("old", ⟨"old", "Old", "n", "a", "t"⟩)], ["old"]⟩ ⟨[], []⟩
      ["Name"] [[""]] (by decide) (by decide)⟩
